import Mathlib

/-!
Verification development for the fastmat operator-composition core:
`Product` (fastmat/Product.pyx) and `DiagBlocks` (fastmat/DiagBlocks.pyx).

Modelling conventions:
* Numeric values (array entries and scalar coefficients) are modelled exactly
  by the Gaussian integers `GaussianInt`, a computable commutative star ring;
  the algebraic identities claimed by the spec are exact, so exact arithmetic
  is the faithful reading of the floating-point code.
* numpy dtypes are modelled by the enumeration `Dtype` together with the numpy
  type-promotion lattice `Dtype.promote` restricted to the dtypes reachable in
  this code (signed integers, floats, complex floats).
* A numpy 2-D array is an `Arr`: a shape, a dtype and a total entry function;
  only entries with in-range indices are ever referred to by the theorems.
* Fallible operations (constructors that raise, `einsum`/`reshape` calls that
  can fail on mismatched shapes) return `Except`/`Option`.
-/

set_option autoImplicit false

namespace Fastmat

/-- Exact model of the numeric values flowing through the library: complex
numbers with exact (integer) components, forming a computable star ring. -/
abbrev K := GaussianInt

/-- The numpy dtypes reachable in the modelled code: signed integers,
IEEE floats, complex floats. -/
inductive Dtype where
  | i8 | i16 | i32 | i64 | f32 | f64 | c64 | c128
  deriving DecidableEq, Repr, Fintype

namespace Dtype

/-- numpy type category: 0 = signed integer, 1 = float, 2 = complex float. -/
def cat : Dtype → ℕ
  | .i8 | .i16 | .i32 | .i64 => 0
  | .f32 | .f64 => 1
  | .c64 | .c128 => 2

/-- Width used for ordering within one category. -/
def width : Dtype → ℕ
  | .i8 => 8 | .i16 => 16 | .i32 => 32 | .i64 => 64
  | .f32 => 32 | .f64 => 64 | .c64 => 32 | .c128 => 64

/-- Float width needed to represent this dtype without loss when the
promotion crosses into the float or complex category (numpy rule: 8/16-bit
integers fit into float32, 32/64-bit integers need float64). -/
def flvl : Dtype → ℕ
  | .i8 => 32 | .i16 => 32 | .i32 => 64 | .i64 => 64
  | .f32 => 32 | .f64 => 64 | .c64 => 32 | .c128 => 64

/-- `np.promote_types` restricted to the dtypes of `Dtype`. -/
def promote (a b : Dtype) : Dtype :=
  if a.cat = b.cat then (if a.width ≤ b.width then b else a)
  else
    let c := max a.cat b.cat
    let l := max a.flvl b.flvl
    if c = 1 then (if l = 32 then .f32 else .f64)
    else (if l = 32 then .c64 else .c128)

/-- `a.le b` means promoting `a` into `b` loses nothing (`b` absorbs `a`). -/
def le (a b : Dtype) : Prop := promote a b = b

instance (a b : Dtype) : Decidable (a.le b) := by unfold le; infer_instance

theorem promote_comm : ∀ a b : Dtype, promote a b = promote b a := by decide

theorem le_refl : ∀ a : Dtype, a.le a := by decide

theorem le_trans : ∀ a b c : Dtype, a.le b → b.le c → a.le c := by decide

theorem le_promote_left : ∀ a b : Dtype, a.le (promote a b) := by decide

theorem le_promote_right : ∀ a b : Dtype, b.le (promote a b) := by decide

end Dtype

/-- `safeTypeExpansion` of fastmat/helpers/types.

Modelled from the spec: the helper module is not part of the supplied
sources.  Per the spec's Type Promotion Policy, the default expansion maps
8/16-bit integers to `float32`, wider integers and the narrow float to
`float64`, and leaves wide float/complex types unchanged. -/
def safeTypeExpansion : Dtype → Dtype
  | .i8 => .f32
  | .i16 => .f32
  | .i32 => .f64
  | .i64 => .f64
  | .f32 => .f64
  | d => d

/-- A numpy 2-D array: shape, dtype and (total) entry function.  Batches of
column vectors are `Arr`s whose column count is the batch width. -/
structure Arr where
  rows : ℕ
  cols : ℕ
  dtype : Dtype
  val : ℕ → ℕ → K

namespace Arr

/-- `X.astype d` — dtype cast; entry values are modelled exactly. -/
def astype (X : Arr) (d : Dtype) : Arr := { X with dtype := d }

/-- `np.inner(X, s)` for a scalar `s` of dtype `sd`: element-wise scalar
multiplication with numpy type promotion. -/
def scaleInner (X : Arr) (s : K) (sd : Dtype) : Arr :=
  { rows := X.rows, cols := X.cols, dtype := X.dtype.promote sd,
    val := fun i j => X.val i j * s }

/-- `A.dot(B)` — matrix product contracting `A`'s columns with `B`'s rows. -/
def dot (A B : Arr) : Arr :=
  { rows := A.rows, cols := B.cols, dtype := A.dtype.promote B.dtype,
    val := fun i j => ∑ k in Finset.range A.cols, A.val i k * B.val k j }

/-- Conjugate transpose of a dense array. -/
def conjT (A : Arr) : Arr :=
  { rows := A.cols, cols := A.rows, dtype := A.dtype,
    val := fun i j => star (A.val j i) }

@[simp] theorem astype_rows (X : Arr) (d : Dtype) : (X.astype d).rows = X.rows := rfl
@[simp] theorem astype_cols (X : Arr) (d : Dtype) : (X.astype d).cols = X.cols := rfl
@[simp] theorem scaleInner_rows (X : Arr) (s : K) (sd : Dtype) :
    (X.scaleInner s sd).rows = X.rows := rfl
@[simp] theorem scaleInner_cols (X : Arr) (s : K) (sd : Dtype) :
    (X.scaleInner s sd).cols = X.cols := rfl
@[simp] theorem dot_rows (A B : Arr) : (A.dot B).rows = A.rows := rfl
@[simp] theorem dot_cols (A B : Arr) : (A.dot B).cols = B.cols := rfl

end Arr

/-- Conjugate-symmetric inner product of the leading `n` entries of the first
columns of `u` and `v`. -/
def dotc (u v : Arr) (n : ℕ) : K :=
  ∑ i in Finset.range n, u.val i 0 * star (v.val i 0)

/-- A fastmat operator (an instance of the abstract `Matrix` base contract):
shape, dtype, forward and backward transforms, and a dense reference. -/
structure Op where
  numN : ℕ
  numM : ℕ
  dtype : Dtype
  fwd : Arr → Arr
  bwd : Arr → Arr
  ref : Arr

/-- Well-formedness of an operator.

Modelled from the spec: the `Matrix` base class implementing the Operator
Contract (shape and dtype discipline of `forward`, `backward`, `reference`)
is not part of the supplied sources; these clauses transcribe the contract of
spec section 6 (forward maps a `numM`-row batch to a `numN`-row batch of the
same width, backward the converse, the result dtype is at least the promotion
of the input dtype with the operator dtype, and `reference` is a dense
`numN x numM` array). -/
structure Op.WF (A : Op) : Prop where
  fwd_rows : ∀ X : Arr, X.rows = A.numM → (A.fwd X).rows = A.numN
  fwd_cols : ∀ X : Arr, (A.fwd X).cols = X.cols
  fwd_dtype : ∀ X : Arr, (X.dtype.promote A.dtype).le (A.fwd X).dtype
  bwd_rows : ∀ X : Arr, X.rows = A.numN → (A.bwd X).rows = A.numM
  bwd_cols : ∀ X : Arr, (A.bwd X).cols = X.cols
  bwd_dtype : ∀ X : Arr, (X.dtype.promote A.dtype).le (A.bwd X).dtype
  ref_rows : A.ref.rows = A.numN
  ref_cols : A.ref.cols = A.numM

/-- A dense operator wrapping an explicit `n x m` array (fastmat's `Matrix`
leaf class): forward is `dot`, backward is `dot` by the conjugate transpose. -/
def denseOp (n m : ℕ) (d : Dtype) (f : ℕ → ℕ → K) : Op :=
  let R : Arr := ⟨n, m, d, f⟩
  { numN := n, numM := m, dtype := d,
    fwd := fun X => R.dot X,
    bwd := fun X => R.conjT.dot X,
    ref := R }

theorem denseOp_wf (n m : ℕ) (d : Dtype) (f : ℕ → ℕ → K) : (denseOp n m d f).WF where
  fwd_rows X _ := rfl
  fwd_cols X := rfl
  fwd_dtype X := by
    simpa [denseOp, Arr.dot, Dtype.promote_comm d X.dtype] using
      Dtype.le_refl (X.dtype.promote d)
  bwd_rows X _ := rfl
  bwd_cols X := rfl
  bwd_dtype X := by
    simpa [denseOp, Arr.dot, Arr.conjT, Dtype.promote_comm d X.dtype] using
      Dtype.le_refl (X.dtype.promote d)
  ref_rows := rfl
  ref_cols := rfl

/-! ## Product (fastmat/Product.pyx) -/

/-- Errors raised by `Product.__init__`: `ValueError("Product has no terms.")`
and `ValueError("Dimensions of product factor %d [%dx%d] do not match."
% (ii, numN, numM))`, the latter carrying the three formatted numbers. -/
inductive ProductError where
  | noTerms
  | dimMismatch (ii numN numM : ℕ)
  deriving DecidableEq, Repr

/-- A constructed `Product`: absorbed scalar coefficient (stored, after
`astype`, at the product dtype), the flattened factor tuple `_content`, and
the properties set by `_initProperties`. -/
structure Product where
  scalar : K
  content : List Op
  numN : ℕ
  numM : ℕ
  dtype : Dtype

/-- One term of the variadic argument list of `Product(*matrices)`: a numpy
scalar (value and dtype), a non-Product fastmat matrix, or a nested
`Product`. -/
inductive Term where
  | scalar (v : K) (d : Dtype)
  | op (A : Op)
  | prod (P : Product)

/-- Accumulator state of `__addFactors`: the growing factor list
`lstFactors`, the running scalar `self._scalar`, and the running promoted
dtype `datatype[0]`. -/
structure FlatState where
  factors : List Op
  scalarVal : K
  datatype : Dtype

/-- Scalar branch of `__addFactors`: promote `datatype` by the scalar's own
dtype and fold the value into the running scalar by `np.inner`. -/
def absorbScalar (st : FlatState) (v : K) (d : Dtype) : FlatState :=
  { st with datatype := st.datatype.promote d, scalarVal := st.scalarVal * v }

/-- Plain-matrix branch of `__addFactors`: promote `datatype` by the factor
dtype and append the factor. -/
def absorbOp (st : FlatState) (A : Op) : FlatState :=
  { st with datatype := st.datatype.promote A.dtype, factors := st.factors ++ [A] }

/-- The read-only `content` property: `[self._scalar] if self._scalar != 1
else []` prepended to the factor tuple.  The scalar it exposes carries the
product dtype (`self._scalar` was cast to it at construction). -/
def Product.contentProperty (P : Product) : List Term :=
  (if P.scalar ≠ 1 then [Term.scalar P.scalar P.dtype] else []) ++ P.content.map Term.op

/-- One iteration of `__addFactors`.  A nested `Product` is flattened by
recursing over its `content` property; by construction that list holds only
the (optional) scalar and plain non-Product factors, so the recursion is
inlined here. -/
def addOne (st : FlatState) : Term → FlatState
  | .scalar v d => absorbScalar st v d
  | .op A => absorbOp st A
  | .prod P =>
      let st1 := if P.scalar ≠ 1 then absorbScalar st P.scalar P.dtype else st
      P.content.foldl absorbOp st1

/-- `__addFactors` over the whole term list. -/
def addFactors (st : FlatState) (terms : List Term) : FlatState :=
  terms.foldl addOne st

/-- The flattened factor list produced by construction from `terms`. -/
def flatFactors (terms : List Term) : List Op :=
  (addFactors ⟨[], 1, .i8⟩ terms).factors

/-- The shape-validation loop of `Product.__init__`: starting at index `1`
with `numM = lstFactors[0].numM` and `numN = lstFactors[0].numN` (never
updated), check `factor.numN == numM` for each later factor, else raise with
`(ii, numN, numM)`; on success return the final `numM`. -/
def dimCheck (numN : ℕ) : List Op → ℕ → ℕ → Except ProductError ℕ
  | [], _, numM => .ok numM
  | A :: rest, ii, numM =>
      if A.numN ≠ numM then .error (.dimMismatch ii numN numM)
      else dimCheck numN rest (ii + 1) A.numM

/-- `Product.__init__` with default options (`typeExpansion` defaulted to
`safeTypeExpansion`, `debug` off): flatten the terms, promote the dtype,
apply the default type expansion, reject an empty factor list, validate the
shape chain, cast the scalar to the final dtype (value-preserving in this
exact model) and set the matrix properties. -/
def Product.make (terms : List Term) : Except ProductError Product :=
  match (addFactors ⟨[], 1, .i8⟩ terms).factors with
  | [] => .error .noTerms
  | F0 :: rest =>
      match dimCheck F0.numN rest 1 F0.numM with
      | .error e => .error e
      | .ok numM =>
          .ok { scalar := (addFactors ⟨[], 1, .i8⟩ terms).scalarVal,
                content := F0 :: rest, numN := F0.numN, numM := numM,
                dtype := (addFactors ⟨[], 1, .i8⟩ terms).datatype.promote
                  (safeTypeExpansion (addFactors ⟨[], 1, .i8⟩ terms).datatype) }

/-- The scalar step of `Product._forward`: `np.inner(arrX, self._scalar)`
when the scalar differs from `1`, else an explicit `astype` to the promotion
of the input dtype with the product dtype. -/
def Product.scalarFwdStep (P : Product) (X : Arr) : Arr :=
  if P.scalar ≠ 1 then X.scaleInner P.scalar P.dtype
  else X.astype (X.dtype.promote P.dtype)

/-- `Product._forward`: scalar step, then each factor's `forward` from the
last content entry down to the first. -/
def Product.forward (P : Product) (X : Arr) : Arr :=
  P.content.reverse.foldl (fun r A => A.fwd r) (P.scalarFwdStep X)

/-- The scalar step of `Product._backward`: multiply by the conjugate of the
scalar when `np.iscomplex(self._scalar)` (nonzero imaginary part), by the
scalar itself otherwise, and `astype` when the scalar equals `1`. -/
def Product.scalarBwdStep (P : Product) (X : Arr) : Arr :=
  if P.scalar ≠ 1 then
    if P.scalar.im ≠ 0 then X.scaleInner (star P.scalar) P.dtype
    else X.scaleInner P.scalar P.dtype
  else X.astype (X.dtype.promote P.dtype)

/-- `Product._backward`: scalar step, then each factor's `backward` in
content order. -/
def Product.backward (P : Product) (X : Arr) : Arr :=
  P.content.foldl (fun r A => A.bwd r) (P.scalarBwdStep X)

/-- `Product._reference`: scale the last factor's dense reference by the
scalar cast to `promote(float64, dtype)`, then left-multiply by the remaining
factors' references from right to left. -/
def Product.reference (P : Product) : Arr :=
  match P.content.getLast? with
  | none => ⟨0, 0, .f64, fun _ _ => 0⟩
  | some Ak =>
      let d64 := Dtype.f64.promote P.dtype
      P.content.dropLast.foldr (fun A r => A.ref.dot r) (Ak.ref.scaleInner P.scalar d64)

/-- `Product._forwardReferenceInit`: the cached list of the factors' dense
reference matrices. -/
def Product.forwardReferenceInit (P : Product) : List Arr :=
  P.content.map Op.ref

/-- `Product._forwardReference`: build the cache if absent (`None`), then
apply the cached dense matrices to the input from the last to the first.
Returns the result together with the cache left behind for later calls. -/
def Product.forwardReference (P : Product) (cache : Option (List Arr)) (X : Arr) :
    Arr × List Arr :=
  let mats := match cache with
    | some l => l
    | none => P.forwardReferenceInit
  (mats.foldr (fun M r => M.dot r) X, mats)

/-- The scalar application the spec describes: `s * X` element-wise, under
the promotion of the input dtype with the working dtype `d`. -/
def specScale (s : K) (d : Dtype) (X : Arr) : Arr :=
  { rows := X.rows, cols := X.cols, dtype := X.dtype.promote d,
    val := fun i j => s * X.val i j }

/-! ## DiagBlocks (fastmat/DiagBlocks.pyx) -/

/-- A `DiagBlocks` operator, constructed from a 3-D tensor `tenDiags` of
shape `(numDiagsN, numDiagsM, numDiagsSize)` (the tensor is copied, shapes
are read off the three axes, the dtype is the tensor dtype). -/
structure DiagBlocks where
  numDiagsN : ℕ
  numDiagsM : ℕ
  numDiagsSize : ℕ
  ten : ℕ → ℕ → ℕ → K
  dtype : Dtype

namespace DiagBlocks

/-- `numN = tenDiags.shape[0] * tenDiags.shape[2]`. -/
def numN (D : DiagBlocks) : ℕ := D.numDiagsN * D.numDiagsSize

/-- `numM = tenDiags.shape[1] * tenDiags.shape[2]`. -/
def numM (D : DiagBlocks) : ℕ := D.numDiagsM * D.numDiagsSize

/-- `DiagBlocks._forwardC`:
`np.einsum('nmz,zmk -> znk', tenDiags, arrX.reshape((-1, numDiagsM, k), order='F'))`
followed by an F-order reshape back to 2-D.  The F-order reshape of the input
is defined when `numDiagsM` divides the row count and carves the rows into
`numDiagsM` blocks of length `rows / numDiagsM`; the einsum additionally
requires its `z`-labelled axes to agree (`numDiagsSize = rows / numDiagsM`),
else numpy raises and no result is produced.  Writing `z1 = rows/numDiagsM`,
output row `n * z1 + z` is `sum_m ten[n,m,z] * X[m * z1 + z]`.  The result
dtype reflects the `widenInputDatatype=True` property of the class.  -/
def forwardC (D : DiagBlocks) (X : Arr) : Option Arr :=
  let z1 := X.rows / D.numDiagsM
  if D.numDiagsM ∣ X.rows ∧ D.numDiagsSize = z1 then
    some ⟨z1 * D.numDiagsN, X.cols, X.dtype.promote D.dtype,
      fun i j => ∑ m in Finset.range D.numDiagsM,
        D.ten (i / z1) m (i % z1) * X.val (m * z1 + i % z1) j⟩
  else none

/-- `DiagBlocks._backwardC`:
`np.einsum('mnz,zmk -> znk', tenDiags.conj(), arrX.reshape((-1, numDiagsM, k), order='F'))`
followed by an F-order reshape back to 2-D.  The input reshape again uses
`numDiagsM` (not `numDiagsN`), so besides the divisibility and `z`-axis
conditions the einsum label `m` now ties the first tensor axis (length
`numDiagsN`) to the reshaped axis of length `numDiagsM`: numpy raises unless
`numDiagsN = numDiagsM`.  Writing `z1 = rows/numDiagsM`, output row
`n * z1 + z` is `sum_m conj(ten[m,n,z]) * X[m * z1 + z]`. -/
def backwardC (D : DiagBlocks) (X : Arr) : Option Arr :=
  let z1 := X.rows / D.numDiagsM
  if D.numDiagsM ∣ X.rows ∧ D.numDiagsN = D.numDiagsM ∧ D.numDiagsSize = z1 then
    some ⟨z1 * D.numDiagsM, X.cols, X.dtype.promote D.dtype,
      fun i j => ∑ m in Finset.range D.numDiagsN,
        star (D.ten m (i / z1) (i % z1)) * X.val (m * z1 + i % z1) j⟩
  else none

/-- `DiagBlocks._reference`: a dense zero matrix of shape `(numN, numM)` in
which the loop writes `np.diag(tenDiags[nn, mm, :])` into the block at row
offset `nn * numDiagsSize` and column offset `mm * numDiagsSize`.  Entry
`(i, j)` of the written array therefore holds `ten[i/s, j/s, i%s]` when the
within-block coordinates agree (`i % s = j % s`) and zero otherwise. -/
def reference (D : DiagBlocks) : Arr :=
  let s := D.numDiagsSize
  ⟨D.numN, D.numM, D.dtype,
    fun i j =>
      if i / s < D.numDiagsN ∧ j / s < D.numDiagsM ∧ i % s = j % s
      then D.ten (i / s) (j / s) (i % s) else 0⟩

end DiagBlocks

/-! ## Auxiliary lemmas -/

/-- `consumes l mIn mOut`: threading a batch through the factors of `l` from
the left consumes row counts consistently — each factor's `numN` matches the
incoming count, its `numM` is handed to the next factor, and `mOut` is the
final count.  This is the invariant established by the validation loop. -/
def consumes : List Op → ℕ → ℕ → Prop
  | [], m, mOut => mOut = m
  | A :: rest, m, mOut => A.numN = m ∧ consumes rest A.numM mOut

theorem dimCheck_ok_consumes :
    ∀ (l : List Op) (numN ii m mOut : ℕ),
      dimCheck numN l ii m = .ok mOut → consumes l m mOut := by
  intro l
  induction l with
  | nil =>
      intro numN ii m mOut h
      simp only [dimCheck] at h
      injection h with h1
      exact h1.symm
  | cons A rest ih =>
      intro numN ii m mOut h
      simp only [dimCheck] at h
      split at h
      · exact absurd h (by simp)
      · exact ⟨not_not.mp (by assumption), ih numN (ii + 1) A.numM mOut h⟩

theorem dimCheck_error_at :
    ∀ (pre : List Op) (numN ii m mOut : ℕ) (Y : Op) (suf : List Op),
      consumes pre m mOut → Y.numN ≠ mOut →
      dimCheck numN (pre ++ Y :: suf) ii m
        = .error (.dimMismatch (ii + pre.length) numN mOut) := by
  intro pre
  induction pre with
  | nil =>
      intro numN ii m mOut Y suf hc hY
      cases hc
      simp only [List.nil_append, dimCheck, if_pos hY, List.length_nil, Nat.add_zero]
  | cons A pre ih =>
      intro numN ii m mOut Y suf hc hY
      obtain ⟨hA, hc⟩ := hc
      have hcond : ¬(A.numN ≠ m) := by simp [hA]
      rw [List.cons_append]
      simp only [dimCheck]
      rw [if_neg hcond, ih numN (ii + 1) A.numM mOut Y suf hc hY,
        List.length_cons]
      have : ii + 1 + pre.length = ii + (pre.length + 1) := by omega
      rw [this]

/-- Inversion of a successful construction: the content is the flattened
factor list, nonempty; `numN` is the head's `numN`; the content consumes row
counts from `numN` down to `numM`; the scalar is the absorbed running scalar
and the dtype the expanded promoted dtype. -/
theorem make_ok_spec (terms : List Term) (P : Product)
    (h : Product.make terms = .ok P) :
    P.content = flatFactors terms ∧ P.content ≠ [] ∧
      (∀ F0 rest, P.content = F0 :: rest → P.numN = F0.numN) ∧
      consumes P.content P.numN P.numM ∧
      P.scalar = (addFactors ⟨[], 1, .i8⟩ terms).scalarVal ∧
      P.dtype = (addFactors ⟨[], 1, .i8⟩ terms).datatype.promote
        (safeTypeExpansion (addFactors ⟨[], 1, .i8⟩ terms).datatype) := by
  unfold Product.make at h
  rcases hf : (addFactors ⟨[], 1, .i8⟩ terms).factors with _ | ⟨F0, rest⟩
  · simp only [hf] at h
    exact Except.noConfusion h
  · simp only [hf] at h
    rcases hd : dimCheck F0.numN rest 1 F0.numM with e | mOut
    · simp only [hd] at h
      exact Except.noConfusion h
    · simp only [hd, Except.ok.injEq] at h
      subst h
      refine ⟨by simpa [flatFactors] using hf.symm, by simp, ?_, ?_, rfl, rfl⟩
      · intro G0 grest hEq
        cases hEq
        rfl
      · exact ⟨rfl, dimCheck_ok_consumes rest F0.numN 1 F0.numM mOut hd⟩

theorem consumes_fwd_rows :
    ∀ (l : List Op) (mIn mOut : ℕ), consumes l mIn mOut →
      (∀ A ∈ l, A.WF) → ∀ X : Arr, X.rows = mOut →
      (l.foldr (fun A r => A.fwd r) X).rows = mIn := by
  intro l
  induction l with
  | nil =>
      intro mIn mOut hc _ X hX
      cases hc
      exact hX
  | cons A rest ih =>
      intro mIn mOut hc hw X hX
      obtain ⟨hA, hc⟩ := hc
      have hr := ih A.numM mOut hc (fun B hB => hw B (List.mem_cons_of_mem _ hB)) X hX
      simpa [hA] using (hw A (List.mem_cons_self _ _)).fwd_rows _ hr

theorem foldr_fwd_cols (l : List Op) (hw : ∀ A ∈ l, A.WF) (X : Arr) :
    (l.foldr (fun A r => A.fwd r) X).cols = X.cols := by
  induction l with
  | nil => rfl
  | cons A rest ih =>
      have := (hw A (List.mem_cons_self _ _)).fwd_cols
        (rest.foldr (fun A r => A.fwd r) X)
      simpa [this] using ih (fun B hB => hw B (List.mem_cons_of_mem _ hB))

theorem foldr_fwd_dtype (l : List Op) (hw : ∀ A ∈ l, A.WF) (X : Arr) :
    X.dtype.le (l.foldr (fun A r => A.fwd r) X).dtype := by
  induction l with
  | nil => exact Dtype.le_refl _
  | cons A rest ih =>
      have h1 := ih (fun B hB => hw B (List.mem_cons_of_mem _ hB))
      have h2 := (hw A (List.mem_cons_self _ _)).fwd_dtype
        (rest.foldr (fun A r => A.fwd r) X)
      exact Dtype.le_trans _ _ _
        (Dtype.le_trans _ _ _ h1 (Dtype.le_promote_left _ _)) h2

theorem consumes_bwd_rows :
    ∀ (l : List Op) (mIn mOut : ℕ), consumes l mIn mOut →
      (∀ A ∈ l, A.WF) → ∀ X : Arr, X.rows = mIn →
      (l.foldl (fun r A => A.bwd r) X).rows = mOut := by
  intro l
  induction l with
  | nil =>
      intro mIn mOut hc _ X hX
      cases hc
      exact hX
  | cons A rest ih =>
      intro mIn mOut hc hw X hX
      obtain ⟨hA, hc⟩ := hc
      have h1 : (A.bwd X).rows = A.numM :=
        (hw A (List.mem_cons_self _ _)).bwd_rows X (by rw [hX, hA])
      exact ih A.numM mOut hc (fun B hB => hw B (List.mem_cons_of_mem _ hB)) _ h1

theorem foldl_bwd_cols :
    ∀ (l : List Op), (∀ A ∈ l, A.WF) → ∀ X : Arr,
      (l.foldl (fun r A => A.bwd r) X).cols = X.cols := by
  intro l
  induction l with
  | nil => intro _ X; rfl
  | cons A rest ih =>
      intro hw X
      have h1 := (hw A (List.mem_cons_self _ _)).bwd_cols X
      rw [List.foldl_cons, ih (fun B hB => hw B (List.mem_cons_of_mem _ hB)), h1]

theorem foldl_bwd_dtype :
    ∀ (l : List Op), (∀ A ∈ l, A.WF) → ∀ X : Arr,
      X.dtype.le (l.foldl (fun r A => A.bwd r) X).dtype := by
  intro l
  induction l with
  | nil => intro _ X; exact Dtype.le_refl _
  | cons A rest ih =>
      intro hw X
      have h2 := (hw A (List.mem_cons_self _ _)).bwd_dtype X
      have h1 := ih (fun B hB => hw B (List.mem_cons_of_mem _ hB)) (A.bwd X)
      exact Dtype.le_trans _ _ _
        (Dtype.le_trans _ _ _ (Dtype.le_promote_left _ _) h2) h1

theorem star_eq_of_im_zero (z : K) (h : z.im = 0) : star z = z := by
  obtain ⟨re, im⟩ := z
  simp only [Zsqrtd.star_mk]
  simp_all

theorem scalarFwdStep_eq (P : Product) (X : Arr) :
    P.scalarFwdStep X = specScale P.scalar P.dtype X := by
  obtain ⟨r, c, d, v⟩ := X
  unfold Product.scalarFwdStep
  split
  · simp only [Arr.scaleInner, specScale]
    congr 1
    funext i j
    exact mul_comm _ _
  · next h =>
      have h1 : P.scalar = 1 := not_not.mp h
      simp only [Arr.astype, specScale, h1]
      congr 1
      funext i j
      exact (one_mul _).symm

theorem scalarBwdStep_eq (P : Product) (X : Arr) :
    P.scalarBwdStep X = specScale (star P.scalar) P.dtype X := by
  obtain ⟨r, c, d, v⟩ := X
  unfold Product.scalarBwdStep
  split
  · split
    · simp only [Arr.scaleInner, specScale]
      congr 1
      funext i j
      exact mul_comm _ _
    · next him =>
        have h0 : P.scalar.im = 0 := not_not.mp him
        have hs : star P.scalar = P.scalar := star_eq_of_im_zero P.scalar h0
        simp only [Arr.scaleInner, specScale, hs]
        congr 1
        funext i j
        exact mul_comm _ _
  · next h =>
      have h1 : P.scalar = 1 := not_not.mp h
      simp only [Arr.astype, specScale, h1, star_one]
      congr 1
      funext i j
      exact (one_mul _).symm

theorem sum_range_mul_split {M : Type} [AddCommMonoid M] (a b : ℕ) (f : ℕ → M) :
    ∑ i in Finset.range (a * b), f i
      = ∑ p in Finset.range a, ∑ q in Finset.range b, f (p * b + q) := by
  induction a with
  | zero => simp
  | succ n ih =>
      have key : ∑ i in Finset.range (n * b + b), f i
          = (∑ i in Finset.range (n * b), f i)
            + ∑ q in Finset.range b, f (n * b + q) := by
        rw [Finset.range_eq_Ico,
          ← Finset.sum_Ico_consecutive f (Nat.zero_le (n * b))
            (Nat.le_add_right (n * b) b)]
        congr 1
        rw [Finset.sum_Ico_eq_sum_range, Nat.add_sub_cancel_left,
          ← Finset.range_eq_Ico]
      rw [Nat.succ_mul, key, ih, Finset.sum_range_succ]

theorem mul_add_div_of_lt (p z s : ℕ) (hz : z < s) : (p * s + z) / s = p := by
  have hs : 0 < s := Nat.lt_of_le_of_lt (Nat.zero_le z) hz
  rw [Nat.mul_comm p s, Nat.mul_add_div hs, Nat.div_eq_of_lt hz, Nat.add_zero]

theorem mul_add_mod_of_lt (p z s : ℕ) (hz : z < s) : (p * s + z) % s = z := by
  rw [Nat.mul_comm p s, Nat.mul_add_mod, Nat.mod_eq_of_lt hz]

theorem sum_comm3 {M : Type} [AddCommMonoid M] (a b c : ℕ) (f : ℕ → ℕ → ℕ → M) :
    ∑ p in Finset.range a, ∑ q in Finset.range b, ∑ m in Finset.range c, f p q m
      = ∑ m in Finset.range c, ∑ q in Finset.range b, ∑ p in Finset.range a, f p q m := by
  rw [Finset.sum_comm]
  refine Eq.trans (Finset.sum_congr rfl fun q _ => Finset.sum_comm) ?_
  rw [Finset.sum_comm]

/-- Evaluation of `_forwardC` on a correctly shaped input: the reshape and
einsum guards hold and the result is the explicit block contraction. -/
theorem forwardC_eval (D : DiagBlocks) (hM : 0 < D.numDiagsM) (x : Arr)
    (hx : x.rows = D.numM) :
    D.forwardC x = some ⟨(D.numDiagsSize) * D.numDiagsN, x.cols,
      x.dtype.promote D.dtype,
      fun i j => ∑ m in Finset.range D.numDiagsM,
        D.ten (i / D.numDiagsSize) m (i % D.numDiagsSize)
          * x.val (m * D.numDiagsSize + i % D.numDiagsSize) j⟩ := by
  have hdx : x.rows / D.numDiagsM = D.numDiagsSize := by
    rw [hx]
    exact Nat.mul_div_cancel_left _ hM
  have hdvd : D.numDiagsM ∣ x.rows := by
    rw [hx]
    exact Dvd.intro _ rfl
  simp only [DiagBlocks.forwardC, hdx]
  rw [if_pos ⟨hdvd, trivial⟩]

/-- Evaluation of `_backwardC` on a correctly shaped input over a square
block grid: all einsum guards hold and the result is the explicit adjoint
block contraction. -/
theorem backwardC_eval (D : DiagBlocks) (hNM : D.numDiagsN = D.numDiagsM)
    (hM : 0 < D.numDiagsM) (y : Arr) (hy : y.rows = D.numN) :
    D.backwardC y = some ⟨(D.numDiagsSize) * D.numDiagsM, y.cols,
      y.dtype.promote D.dtype,
      fun i j => ∑ m in Finset.range D.numDiagsN,
        star (D.ten m (i / D.numDiagsSize) (i % D.numDiagsSize))
          * y.val (m * D.numDiagsSize + i % D.numDiagsSize) j⟩ := by
  have hyr : y.rows = D.numDiagsM * D.numDiagsSize := by
    rw [hy]
    unfold DiagBlocks.numN
    rw [hNM]
  have hdy : y.rows / D.numDiagsM = D.numDiagsSize := by
    rw [hyr]
    exact Nat.mul_div_cancel_left _ hM
  have hdvd : D.numDiagsM ∣ y.rows := by
    rw [hyr]
    exact Dvd.intro _ rfl
  simp only [DiagBlocks.backwardC, hdy]
  rw [if_pos ⟨hdvd, hNM, trivial⟩]

/-! ## Claim theorems -/

/-- C3 (amended): for every DiagBlocks operator over a *square* block grid
(`blockRowCount = blockColCount`, at least one block) and compatible vectors
`x`, `y`, forward and backward both evaluate and the conjugate-symmetric
inner-product identity `<D.forward(x), y> = <x, D.backward(y)>` holds;
backward applies the conjugated tensor with block-row and block-column roles
swapped. -/
theorem diagblocks_adjoint_square (D : DiagBlocks)
    (hNM : D.numDiagsN = D.numDiagsM) (hM : 0 < D.numDiagsM)
    (x y : Arr) (hx : x.rows = D.numM) (hy : y.rows = D.numN) :
    ∃ fx bY : Arr, D.forwardC x = some fx ∧ D.backwardC y = some bY ∧
      dotc fx y D.numN = dotc x bY D.numM := by
  obtain ⟨N, M, s, t, dt⟩ := D
  have hMN : M = N := hNM.symm
  subst hMN
  refine ⟨⟨s * M, x.cols, x.dtype.promote dt,
      fun i j => ∑ m in Finset.range M,
        t (i / s) m (i % s) * x.val (m * s + i % s) j⟩,
    ⟨s * M, y.cols, y.dtype.promote dt,
      fun i j => ∑ m in Finset.range M,
        star (t m (i / s) (i % s)) * y.val (m * s + i % s) j⟩,
    forwardC_eval _ hM x hx, backwardC_eval _ hNM hM y hy, ?_⟩
  unfold dotc
  dsimp only [DiagBlocks.numN, DiagBlocks.numM]
  have e1 : (∑ i in Finset.range (M * s),
        (∑ m in Finset.range M, t (i / s) m (i % s) * x.val (m * s + i % s) 0)
          * star (y.val i 0))
      = ∑ p in Finset.range M, ∑ q in Finset.range s, ∑ m in Finset.range M,
          t p m q * x.val (m * s + q) 0 * star (y.val (p * s + q) 0) := by
    rw [sum_range_mul_split M s]
    refine Finset.sum_congr rfl fun p _ => Finset.sum_congr rfl fun q hq => ?_
    have hqs := Finset.mem_range.mp hq
    rw [mul_add_div_of_lt p q s hqs, mul_add_mod_of_lt p q s hqs, Finset.sum_mul]
  have e2 : (∑ i in Finset.range (M * s),
        x.val i 0 * star (∑ m in Finset.range M,
          star (t m (i / s) (i % s)) * y.val (m * s + i % s) 0))
      = ∑ p in Finset.range M, ∑ q in Finset.range s, ∑ m in Finset.range M,
          x.val (p * s + q) 0 * (t m p q * star (y.val (m * s + q) 0)) := by
    rw [sum_range_mul_split M s]
    refine Finset.sum_congr rfl fun p _ => Finset.sum_congr rfl fun q hq => ?_
    have hqs := Finset.mem_range.mp hq
    rw [mul_add_div_of_lt p q s hqs, mul_add_mod_of_lt p q s hqs, star_sum,
      Finset.mul_sum]
    refine Finset.sum_congr rfl fun m _ => ?_
    rw [star_mul', star_star]
  have e3 : (∑ p in Finset.range M, ∑ q in Finset.range s, ∑ m in Finset.range M,
        t p m q * x.val (m * s + q) 0 * star (y.val (p * s + q) 0))
      = ∑ p in Finset.range M, ∑ q in Finset.range s, ∑ m in Finset.range M,
          x.val (p * s + q) 0 * (t m p q * star (y.val (m * s + q) 0)) := by
    rw [sum_comm3 M s M]
    refine Finset.sum_congr rfl fun a _ => Finset.sum_congr rfl fun q _ =>
      Finset.sum_congr rfl fun b _ => ?_
    ring
  exact e1.trans (e3.trans e2.symm)

/-- C8: the dense reference of a DiagBlocks operator has shape
`(numN, numM) = (blockRowCount * blockSize, blockColCount * blockSize)` and,
for every block-row `n` and block-column `m`, carries
`diag(tenDiags[n, m, :])` at row offset `n * blockSize` and column offset
`m * blockSize`, with zeros off those diagonals. -/
theorem diagblocks_reference_spec (D : DiagBlocks) (n m z z' : ℕ)
    (hn : n < D.numDiagsN) (hm : m < D.numDiagsM)
    (hz : z < D.numDiagsSize) (hz' : z' < D.numDiagsSize) :
    D.reference.rows = D.numN ∧ D.reference.cols = D.numM
      ∧ D.numN = D.numDiagsN * D.numDiagsSize
      ∧ D.numM = D.numDiagsM * D.numDiagsSize
      ∧ D.reference.val (n * D.numDiagsSize + z) (m * D.numDiagsSize + z')
          = (if z = z' then D.ten n m z else 0) := by
  refine ⟨rfl, rfl, rfl, rfl, ?_⟩
  unfold DiagBlocks.reference
  dsimp only
  rw [mul_add_div_of_lt n z _ hz, mul_add_mod_of_lt n z _ hz,
    mul_add_div_of_lt m z' _ hz', mul_add_mod_of_lt m z' _ hz']
  by_cases h : z = z'
  · rw [if_pos ⟨hn, hm, h⟩, if_pos h]
  · rw [if_neg fun hc => h hc.2.2, if_neg h]

/-- C1: for every successfully constructed Product with factors
`A_1 .. A_k` and scalar `s`, and every batch `X` with `numM` rows,
`forward(X)` equals the scalar applied first under the promoted working type
followed by each factor's `forward` in reverse content order, and the result
has `numN` rows and the column count of `X`. -/
theorem product_forward_spec (terms : List Term) (P : Product)
    (hmk : Product.make terms = .ok P) (hwf : ∀ A ∈ P.content, A.WF)
    (X : Arr) (hX : X.rows = P.numM) :
    P.forward X
        = P.content.foldr (fun A r => A.fwd r) (specScale P.scalar P.dtype X)
      ∧ (P.forward X).rows = P.numN ∧ (P.forward X).cols = X.cols := by
  obtain ⟨-, -, -, hcons, -, -⟩ := make_ok_spec terms P hmk
  have heq : P.forward X
      = P.content.foldr (fun A r => A.fwd r) (specScale P.scalar P.dtype X) := by
    unfold Product.forward
    rw [scalarFwdStep_eq]
    simp only [List.foldl_reverse]
  refine ⟨heq, ?_, ?_⟩
  · rw [heq]
    exact consumes_fwd_rows P.content P.numN P.numM hcons hwf _ hX
  · rw [heq, foldr_fwd_cols P.content hwf]
    rfl

/-- C2: for every successfully constructed Product and every batch `X` with
`numN` rows, `backward(X)` multiplies by the conjugate of the scalar (the
scalar itself when it is not complex-valued — the same value) under the
promoted type, then applies each factor's `backward` in forward content
order, producing `numM` rows. -/
theorem product_backward_spec (terms : List Term) (P : Product)
    (hmk : Product.make terms = .ok P) (hwf : ∀ A ∈ P.content, A.WF)
    (X : Arr) (hX : X.rows = P.numN) :
    P.backward X
        = P.content.foldl (fun r A => A.bwd r)
            (specScale (star P.scalar) P.dtype X)
      ∧ (P.backward X).rows = P.numM ∧ (P.backward X).cols = X.cols := by
  obtain ⟨-, -, -, hcons, -, -⟩ := make_ok_spec terms P hmk
  have heq : P.backward X
      = P.content.foldl (fun r A => A.bwd r)
          (specScale (star P.scalar) P.dtype X) := by
    unfold Product.backward
    rw [scalarBwdStep_eq]
  refine ⟨heq, ?_, ?_⟩
  · rw [heq]
    exact consumes_bwd_rows P.content P.numN P.numM hcons hwf _ hX
  · rw [heq, foldl_bwd_cols P.content hwf]
    rfl

/-- C5 (amended): a mismatch in the flattened factor chain is detected at
construction and raises a dimension-mismatch error; the error payload
carries the index `i + 1` of the *second* factor of the first offending
pair, the *first* factor's `numN`, and the expected row count
`content[i].numM` — not `content[i+1].numN`; no operator is returned. -/
theorem product_dim_mismatch_spec (terms : List Term) (F0 Y : Op)
    (pre suf : List Op) (mPrev : ℕ)
    (hflat : flatFactors terms = F0 :: (pre ++ Y :: suf))
    (hpre : consumes pre F0.numM mPrev) (hY : Y.numN ≠ mPrev) :
    Product.make terms
      = .error (.dimMismatch (1 + pre.length) F0.numN mPrev) := by
  unfold flatFactors at hflat
  unfold Product.make
  simp only [hflat]
  rw [dimCheck_error_at pre F0.numN 1 F0.numM mPrev Y suf hpre hY]

/-- C6: nested and flat construction of the same chain produce the same
`Except` outcome, and in particular Products with identical content
ordering, identical scalar and identical forward/backward behaviour. -/
theorem product_flatten_assoc (A B C : Op) (P2 : Product)
    (hAB : Product.make [Term.op A, Term.op B] = .ok P2) :
    Product.make [Term.prod P2, Term.op C]
        = Product.make [Term.op A, Term.op B, Term.op C]
      ∧ ∀ Q1 Q2 : Product,
          Product.make [Term.prod P2, Term.op C] = .ok Q1 →
          Product.make [Term.op A, Term.op B, Term.op C] = .ok Q2 →
          Q1.content = Q2.content ∧ Q1.scalar = Q2.scalar ∧
            ∀ X : Arr, Q1.forward X = Q2.forward X ∧
              Q1.backward X = Q2.backward X := by
  obtain ⟨hcont, -, -, -, hscal, -⟩ := make_ok_spec _ _ hAB
  have hs1 : P2.scalar = 1 := by rw [hscal]; rfl
  have hc : P2.content = [A, B] := by rw [hcont]; rfl
  have hstate : addFactors ⟨[], 1, .i8⟩ [Term.prod P2, Term.op C]
      = addFactors ⟨[], 1, .i8⟩ [Term.op A, Term.op B, Term.op C] := by
    simp only [addFactors, List.foldl, addOne, hs1, hc, ne_eq,
      not_true_eq_false, if_false, List.foldl_cons, List.foldl_nil]
  have hmain : Product.make [Term.prod P2, Term.op C]
      = Product.make [Term.op A, Term.op B, Term.op C] := by
    unfold Product.make
    rw [hstate]
  refine ⟨hmain, fun Q1 Q2 h1 h2 => ?_⟩
  rw [hmain, h2, Except.ok.injEq] at h1
  subst h1
  exact ⟨rfl, rfl, fun X => ⟨rfl, rfl⟩⟩

/-- C7: every scalar term is absorbed into the running coefficient in
encounter order and never appears among the factors:
`Product(2, A, 3, B)` yields `scalar = 6` and `content = (A, B)`. -/
theorem product_scalar_absorption (A B : Op) (d2 d3 : Dtype) (P : Product)
    (hmk : Product.make
      [Term.scalar 2 d2, Term.op A, Term.scalar 3 d3, Term.op B] = .ok P) :
    P.scalar = 6 ∧ P.content = [A, B] := by
  obtain ⟨hcont, -, -, -, hscal, -⟩ := make_ok_spec _ _ hmk
  constructor
  · rw [hscal]
    show ((1 : K) * 2) * 3 = 6
    norm_num
  · rw [hcont]
    rfl

/-- C9 (amended): the internal factor sequence of a Product consists only of
non-scalar operators, but the publicly observable `content` property equals
it only when the absorbed scalar is `1`; when the scalar differs from `1`
the property prepends the scalar coefficient as an extra leading entry. -/
theorem product_content_property_spec (P : Product) :
    (P.scalar = 1 → P.contentProperty = P.content.map Term.op)
      ∧ (P.scalar ≠ 1 →
          P.contentProperty
            = Term.scalar P.scalar P.dtype :: P.content.map Term.op) := by
  constructor <;> intro h <;> simp [Product.contentProperty, h]

/-- C10: the batch produced by `forward` and by `backward` carries a dtype
at least as wide as the promotion of the input dtype with the Product's
declared dtype — including when the scalar equals `1` and only the explicit
`astype` runs. -/
theorem product_dtype_widening (terms : List Term) (P : Product)
    (_hmk : Product.make terms = .ok P) (hwf : ∀ A ∈ P.content, A.WF)
    (X : Arr) :
    (X.dtype.promote P.dtype).le (P.forward X).dtype
      ∧ (X.dtype.promote P.dtype).le (P.backward X).dtype := by
  have hfa : (P.scalarFwdStep X).dtype = X.dtype.promote P.dtype := by
    unfold Product.scalarFwdStep
    split <;> rfl
  have hba : (P.scalarBwdStep X).dtype = X.dtype.promote P.dtype := by
    unfold Product.scalarBwdStep
    split
    · split <;> rfl
    · rfl
  constructor
  · have hfold : P.forward X
        = P.content.foldr (fun A r => A.fwd r) (P.scalarFwdStep X) := by
      unfold Product.forward
      simp only [List.foldl_reverse]
    rw [hfold]
    have := foldr_fwd_dtype P.content hwf (P.scalarFwdStep X)
    rwa [hfa] at this
  · have := foldl_bwd_dtype P.content hwf (P.scalarBwdStep X)
    rwa [hba] at this

/-! ## Concrete instances, counterexamples and witnesses -/

/-- A concrete 1 x 1 dense operator with entry 2 and dtype int8. -/
def opOne : Op := denseOp 1 1 .i8 (fun _ _ => 2)

/-- A concrete 1 x 1 dense operator with entry 3 and dtype int16. -/
def opTwo : Op := denseOp 1 1 .i16 (fun _ _ => 3)

/-- A concrete 5 x 3 dense operator (shape-mismatch experiments). -/
def opA53 : Op := denseOp 5 3 .i8 (fun _ _ => 0)

/-- A concrete 4 x 7 dense operator (shape-mismatch experiments). -/
def opB47 : Op := denseOp 4 7 .i8 (fun _ _ => 0)

/-- A 1 x 1 all-ones input batch. -/
def arrOne : Arr := ⟨1, 1, .i8, fun _ _ => 1⟩

/-- The product constructed by `Product(opOne)`. -/
def prodOne : Product := ⟨1, [opOne], 1, 1, .f32⟩

/-- The product constructed by `Product(opOne, opOne)`. -/
def prodTwo : Product := ⟨1, [opOne, opOne], 1, 1, .f32⟩

/-- The product constructed by `Product(2, opOne, 3, opTwo)`. -/
def prodScal : Product := ⟨6, [opOne, opTwo], 1, 1, .f32⟩

/-- The product constructed by `Product(2, opOne)`. -/
def prodC9 : Product := ⟨2, [opOne], 1, 1, .f32⟩

/-- Discriminator for the public content entries: is it an operator term? -/
def Term.isOp : Term → Bool
  | .op _ => true
  | _ => false

/-- A non-square DiagBlocks operator: 2 x 1 blocks of size 1. -/
def diagNS : DiagBlocks := ⟨2, 1, 1, fun _ _ _ => 1, .f64⟩

/-- A batch of `diagNS.numN` rows. -/
def arrY2 : Arr := ⟨2, 1, .f64, fun _ _ => 1⟩

/-- A 1 x 1 x 1 DiagBlocks operator with the purely imaginary entry `i`. -/
def diagOne : DiagBlocks := ⟨1, 1, 1, fun _ _ _ => ⟨0, 1⟩, .c128⟩

/-- A complex-valued 1-entry vector. -/
def arrX1 : Arr := ⟨1, 1, .c128, fun _ _ => ⟨1, 1⟩⟩

/-- Another complex-valued 1-entry vector. -/
def arrY1 : Arr := ⟨1, 1, .c128, fun _ _ => ⟨2, 1⟩⟩

/-- Witness for C1 at `Product(opOne)` applied to a concrete batch. -/
theorem product_forward_spec_witness :
    prodOne.forward arrOne
        = prodOne.content.foldr (fun A r => A.fwd r)
            (specScale prodOne.scalar prodOne.dtype arrOne)
      ∧ (prodOne.forward arrOne).rows = prodOne.numN
      ∧ (prodOne.forward arrOne).cols = arrOne.cols :=
  product_forward_spec [Term.op opOne] prodOne rfl
    (fun A hA => by
      rw [List.mem_singleton.mp hA]
      exact denseOp_wf 1 1 .i8 (fun _ _ => 2))
    arrOne rfl

/-- Witness for C2 at `Product(opOne)` applied to a concrete batch. -/
theorem product_backward_spec_witness :
    prodOne.backward arrOne
        = prodOne.content.foldl (fun r A => A.bwd r)
            (specScale (star prodOne.scalar) prodOne.dtype arrOne)
      ∧ (prodOne.backward arrOne).rows = prodOne.numM
      ∧ (prodOne.backward arrOne).cols = arrOne.cols :=
  product_backward_spec [Term.op opOne] prodOne rfl
    (fun A hA => by
      rw [List.mem_singleton.mp hA]
      exact denseOp_wf 1 1 .i8 (fun _ _ => 2))
    arrOne rfl

/-- C3 counterexample: on a non-square block grid (2 x 1 blocks) the
backward transform does not evaluate at all (the einsum shape check fails),
so the adjoint identity claimed for non-square grids fails. -/
theorem diagblocks_adjoint_counterexample :
    diagNS.numDiagsN ≠ diagNS.numDiagsM
      ∧ arrY2.rows = diagNS.numN
      ∧ diagNS.backwardC arrY2 = none :=
  ⟨by decide, rfl, rfl⟩

/-- Witness for the amended C3 at a concrete complex 1 x 1 x 1 operator. -/
theorem diagblocks_adjoint_square_witness :
    ∃ fx bY : Arr, diagOne.forwardC arrX1 = some fx
      ∧ diagOne.backwardC arrY1 = some bY
      ∧ dotc fx arrY1 diagOne.numN = dotc arrX1 bY diagOne.numM :=
  diagblocks_adjoint_square diagOne rfl (by decide) arrX1 arrY1 rfl rfl

/-- C4 (code bug): for `Product(2, opOne)` the cached reference path
`_forwardReference` returns the unscaled value 2 while both the dense
reference path and the fast forward path return 4 — the cache-based variant
omits the scalar coefficient. -/
theorem product_forwardReference_omits_scalar :
    Product.make [Term.scalar 2 Dtype.i8, Term.op opOne] = .ok prodC9
      ∧ (prodC9.forwardReference none arrOne).1.val 0 0 = 2
      ∧ (prodC9.reference.dot arrOne).val 0 0 = 4
      ∧ (prodC9.forward arrOne).val 0 0 = 4
      ∧ (prodC9.forwardReference none arrOne).1.val 0 0
          ≠ (prodC9.reference.dot arrOne).val 0 0 :=
  ⟨rfl, by decide, by decide, by decide, by decide⟩

/-- C5 counterexample: `Product(opA53, opB47)` (a 5x3 factor followed by a
4x7 factor) fails with payload `(1, 5, 3)` — it reports the first factor's
`numN = 5` and the expected row count `3`, but nowhere the second factor's
mismatched `numN = 4`. -/
theorem product_dim_mismatch_counterexample :
    Product.make [Term.op opA53, Term.op opB47]
        = .error (.dimMismatch 1 5 3)
      ∧ opA53.numM = 3 ∧ opB47.numN = 4
      ∧ (1 : ℕ) ≠ 4 ∧ (5 : ℕ) ≠ 4 ∧ (3 : ℕ) ≠ 4 :=
  ⟨rfl, rfl, rfl, by decide, by decide, by decide⟩

/-- Witness for the amended C5 at the concrete mismatched pair. -/
theorem product_dim_mismatch_spec_witness :
    Product.make [Term.op opA53, Term.op opB47]
      = .error (.dimMismatch 1 5 3) :=
  product_dim_mismatch_spec [Term.op opA53, Term.op opB47] opA53 opB47
    [] [] 3 rfl rfl (by decide)

/-- Witness for C6: `Product(Product(opOne, opOne), opOne)` constructs the
same operator as `Product(opOne, opOne, opOne)`. -/
theorem product_flatten_assoc_witness :
    Product.make [Term.prod prodTwo, Term.op opOne]
      = Product.make [Term.op opOne, Term.op opOne, Term.op opOne] :=
  (product_flatten_assoc opOne opOne opOne prodTwo rfl).1

/-- Witness for C7: `Product(2, opOne, 3, opTwo)` has scalar 6 and factor
sequence `(opOne, opTwo)`. -/
theorem product_scalar_absorption_witness :
    prodScal.scalar = 6 ∧ prodScal.content = [opOne, opTwo] :=
  product_scalar_absorption opOne opTwo .i8 .i8 prodScal rfl

/-- C9 counterexample: `Product(2, opOne)` constructs successfully and its
publicly observable `content` property starts with a *scalar* entry, not an
operator. -/
theorem product_content_property_counterexample :
    Product.make [Term.scalar 2 Dtype.i8, Term.op opOne] = .ok prodC9
      ∧ prodC9.contentProperty = [Term.scalar 2 Dtype.f32, Term.op opOne]
      ∧ Term.isOp (Term.scalar 2 Dtype.f32) = false :=
  ⟨rfl, rfl, rfl⟩

/-- Witness for the amended C9 at the scalar-2 product. -/
theorem product_content_property_witness :
    prodC9.contentProperty
      = Term.scalar prodC9.scalar prodC9.dtype :: prodC9.content.map Term.op :=
  (product_content_property_spec prodC9).2 (by decide)

/-- Witness for C8 at the concrete 1 x 1 x 1 operator. -/
theorem diagblocks_reference_spec_witness :
    diagOne.reference.rows = diagOne.numN
      ∧ diagOne.reference.cols = diagOne.numM
      ∧ diagOne.numN = diagOne.numDiagsN * diagOne.numDiagsSize
      ∧ diagOne.numM = diagOne.numDiagsM * diagOne.numDiagsSize
      ∧ diagOne.reference.val (0 * diagOne.numDiagsSize + 0)
          (0 * diagOne.numDiagsSize + 0)
          = (if (0 : ℕ) = 0 then diagOne.ten 0 0 0 else 0) :=
  diagblocks_reference_spec diagOne 0 0 0 0 (by decide) (by decide)
    (by decide) (by decide)

/-- Witness for C10 at `Product(opOne)` and a concrete batch. -/
theorem product_dtype_widening_witness :
    (arrOne.dtype.promote prodOne.dtype).le (prodOne.forward arrOne).dtype
      ∧ (arrOne.dtype.promote prodOne.dtype).le (prodOne.backward arrOne).dtype :=
  product_dtype_widening [Term.op opOne] prodOne rfl
    (fun A hA => by
      rw [List.mem_singleton.mp hA]
      exact denseOp_wf 1 1 .i8 (fun _ _ => 2))
    arrOne

end Fastmat
